import Mathlib

/-!
# Verification of the csvtools core (CsvSorter / CsvMerger)

Shallow embedding of `csvtools/_csv_sorter.py` and `csvtools/_csv_merger.py`.
Files are modelled as lists of line strings; the quote-aware row tokenizer is
modelled at the character-list level.  The natural-order comparison key
(`_alphanum_key`, provided by the external `yaptools` dependency, absent from
the sources) is modelled from the specification.
-/

namespace Csvtools

/-! ## Row Codec: `CsvMerger._parse_csv_row` -/

/-- One step of the character scan of `_parse_csv_row`: state is
`(fields written so far, current field, protected flag)`; a separator seen
while unprotected closes the current field, a double quote toggles the flag
(and stays in the field), any other character is appended to the field.
This mirrors the loop body of `CsvMerger._parse_csv_row`. -/
def parse_step (sep : Char) : List (List Char) × List Char × Bool → Char →
    List (List Char) × List Char × Bool
  | (fields, cur, prot), c =>
    if c = sep ∧ prot = false then (fields ++ [cur], [], prot)
    else if c = '"' then (fields, cur ++ [c], !prot)
    else (fields, cur ++ [c], prot)

/-- Character-level embedding of `CsvMerger._parse_csv_row` after the
newline strip: scan the row left to right starting from
`protected = False, start = 0, fields = []`, then append the final slice. -/
def parse_csv_row_chars (sep : Char) (row : List Char) : List (List Char) :=
  let st := row.foldl (parse_step sep) ([], [], false)
  st.1 ++ [st.2.1]

/-- Python `row.strip('\n')`: remove leading and trailing newline characters. -/
def strip_newlines (row : List Char) : List Char :=
  ((row.dropWhile (· = '\n')).reverse.dropWhile (· = '\n')).reverse

/-- Embedding of `CsvMerger._parse_csv_row` on strings. -/
def parse_csv_row (row : String) (sep : Char) : List String :=
  (parse_csv_row_chars sep (strip_newlines row.data)).map (fun cs => String.mk cs)

/-- Reference scanner written from the specification's description of the
Row Codec: recurse left to right with an inside-quote flag, splitting on the
separator only while the flag is false; a quote character toggles the flag
and is kept in the field. -/
def scan_split (sep : Char) : List Char → Bool → List (List Char)
  | [], _ => [[]]
  | c :: rest, prot =>
    if c = sep ∧ prot = false then [] :: scan_split sep rest prot
    else if c = '"' then (scan_split sep rest (!prot)).modifyHead (c :: ·)
    else (scan_split sep rest prot).modifyHead (c :: ·)

/-- Join fields with a separator character (inverse direction of the scan). -/
def join_sep (sep : Char) : List (List Char) → List Char
  | [] => []
  | [f] => f
  | f :: g :: fs => f ++ sep :: join_sep sep (g :: fs)

theorem scan_split_ne_nil (sep : Char) (row : List Char) (prot : Bool) :
    scan_split sep row prot ≠ [] := by
  induction row generalizing prot with
  | nil => simp [scan_split]
  | cons c rest ih =>
    unfold scan_split
    by_cases h1 : c = sep ∧ prot = false
    · rw [if_pos h1]; simp
    · rw [if_neg h1]
      by_cases h2 : c = '"'
      · rw [if_pos h2]
        obtain ⟨f, fs, hf⟩ := List.exists_cons_of_ne_nil (ih (!prot))
        simp [hf]
      · rw [if_neg h2]
        obtain ⟨f, fs, hf⟩ := List.exists_cons_of_ne_nil (ih prot)
        simp [hf]

theorem parse_foldl_scan (sep : Char) (row : List Char) :
    ∀ (fields : List (List Char)) (cur : List Char) (prot : Bool),
    (let st := row.foldl (parse_step sep) (fields, cur, prot)
     st.1 ++ [st.2.1]) =
    fields ++ (scan_split sep row prot).modifyHead (cur ++ ·) := by
  induction row with
  | nil => intro fields cur prot; simp [scan_split]
  | cons c rest ih =>
    intro fields cur prot
    simp only [List.foldl_cons, scan_split, parse_step]
    by_cases h1 : c = sep ∧ prot = false
    · simp only [h1, if_pos, if_true]
      rw [ih]
      simp [List.modifyHead]
      cases hsc : scan_split sep rest false <;> simp
    · rw [if_neg h1]
      by_cases h2 : c = '"'
      · rw [if_pos h2, if_neg h1, if_pos h2, ih]
        obtain ⟨f, fs, hf⟩ := List.exists_cons_of_ne_nil
          (scan_split_ne_nil sep rest (!prot))
        simp [hf, List.modifyHead]
      · rw [if_neg h2, if_neg h1, if_neg h2, ih]
        obtain ⟨f, fs, hf⟩ := List.exists_cons_of_ne_nil (scan_split_ne_nil sep rest prot)
        simp [hf, List.modifyHead]

/-- The source parser equals the specification's scanner. -/
theorem parse_csv_row_chars_eq_scan (sep : Char) (row : List Char) :
    parse_csv_row_chars sep row = scan_split sep row false := by
  have h := parse_foldl_scan sep row [] [] false
  simp only [List.nil_append] at h
  rw [parse_csv_row_chars, h]
  obtain ⟨f, fs, hf⟩ := List.exists_cons_of_ne_nil (scan_split_ne_nil sep row false)
  simp [hf, List.modifyHead]

/-- Joining the parsed fields with the separator reconstructs the scanned
line: no character (in particular no quote) is lost by parsing. -/
theorem join_sep_scan_split (sep : Char) (row : List Char) (prot : Bool) :
    join_sep sep (scan_split sep row prot) = row := by
  induction row generalizing prot with
  | nil => simp [scan_split, join_sep]
  | cons c rest ih =>
    unfold scan_split
    by_cases h1 : c = sep ∧ prot = false
    · rw [if_pos h1]
      obtain ⟨f, fs, hf⟩ := List.exists_cons_of_ne_nil (scan_split_ne_nil sep rest prot)
      rw [hf, join_sep]
      rw [← hf, ih]
      simp [h1.1]
    · rw [if_neg h1]
      by_cases h2 : c = '"'
      · rw [if_pos h2]
        obtain ⟨f, fs, hf⟩ := List.exists_cons_of_ne_nil
          (scan_split_ne_nil sep rest (!prot))
        have := ih (!prot)
        rw [hf] at this ⊢
        cases fs with
        | nil => simp_all [join_sep, List.modifyHead]
        | cons g gs => simp_all [join_sep, List.modifyHead]
      · rw [if_neg h2]
        obtain ⟨f, fs, hf⟩ := List.exists_cons_of_ne_nil (scan_split_ne_nil sep rest prot)
        have := ih prot
        rw [hf] at this ⊢
        cases fs with
        | nil => simp_all [join_sep, List.modifyHead]
        | cons g gs => simp_all [join_sep, List.modifyHead]

/-! ## Natural-Order Key

`_alphanum_key` and `alphanum_sort` come from the external `yaptools`
dependency, whose sources are not part of this repository. -/

/-- One run of an alphanumeric key: a non-digit chunk (compared as a
character sequence, i.e. lexicographically by code point, as Python compares
strings) or the integer value of a digit chunk.  Successive runs alternate
non-digit / digit, starting with a (possibly empty) non-digit run, so two
keys are always compared component-wise at equal kinds. -/
abbrev AlphaChunk := Lex (List Char ⊕ Nat)

/-- A non-digit run. -/
def chunk_str (s : List Char) : AlphaChunk := toLex (Sum.inl s)

/-- A digit run, by integer value. -/
def chunk_num (n : Nat) : AlphaChunk := toLex (Sum.inr n)

/-- Decimal value of a run of digit characters. -/
def digits_val (l : List Char) : Nat :=
  l.foldl (fun acc c => 10 * acc + (c.toNat - 48)) 0

/-- Fuel-driven splitter for the alphanumeric key (the fuel, instantiated
with the length of the input, makes the recursion structural). -/
def alphanum_chunks_go : Nat → List Char → List AlphaChunk
  | 0, l => [chunk_str (l.takeWhile (fun c => !c.isDigit))]
  | fuel + 1, l =>
    let s := l.takeWhile (fun c => !c.isDigit)
    let rest := l.dropWhile (fun c => !c.isDigit)
    match rest with
    | [] => [chunk_str s]
    | c :: t =>
      chunk_str s :: chunk_num (digits_val ((c :: t).takeWhile Char.isDigit)) ::
        alphanum_chunks_go fuel ((c :: t).dropWhile Char.isDigit)

/-- Modelled from the spec: `_alphanum_key` of the external `yaptools`
dependency splits a string into maximal alternating runs of digit and
non-digit characters; digit runs compare by integer value and non-digit runs
lexicographically; shorter sequences sort before otherwise-equal longer ones
(the lexicographic order on the chunk list). -/
def alphanum_key (s : String) : List AlphaChunk :=
  alphanum_chunks_go s.data.length s.data

/-! ## Stable sorting by a key

Python's built-in `sorted(rows, key=...)` is a stable sort; any stable sort
by a total key order computes the same function, so it is modelled by a
stable insertion sort (an earlier element is inserted before later elements
of equal key). -/

/-- Insert `a` into `l`, before the first element of key not smaller. -/
def insert_by {α K : Type} [LinearOrder K] (key : α → K) (a : α) : List α → List α
  | [] => [a]
  | b :: rest => if key a ≤ key b then a :: b :: rest else b :: insert_by key a rest

/-- Stable sort by a key: model of Python `sorted(l, key=key)`. -/
def sort_by {α K : Type} [LinearOrder K] (key : α → K) : List α → List α
  | [] => []
  | a :: rest => insert_by key a (sort_by key rest)

/-! ## Chunk Sorter: `CsvSorter._initial_step` -/

/-- `ceil(n / m)`; the source computes it as
`n_rows // chunksize + int(n_rows % chunksize > 0)`. -/
def ceil_div (n m : Nat) : Nat := (n + m - 1) / m

/-- Fuel-driven chunking of a list into consecutive chunks of `n` elements
(the last chunk possibly shorter); the fuel, instantiated with the length of
the list, makes the recursion structural and is sufficient for `n ≥ 1`. -/
def chunk_list_go {α : Type} (n : Nat) : Nat → List α → List (List α)
  | _, [] => []
  | 0, l => [l]
  | fuel + 1, l => l.take n :: chunk_list_go n fuel (l.drop n)

/-- Split a list into consecutive chunks of `n` elements each, the last one
possibly shorter: the chunking of the input rows done by `_initial_step`. -/
def chunk_list {α : Type} (n : Nat) (l : List α) : List (List α) :=
  chunk_list_go n l.length l

/-- Generation-0 runs produced by `CsvSorter._initial_step`: the data rows
are read `chunksize` at a time and each chunk is sorted by the active key. -/
def initial_runs {K : Type} [LinearOrder K] (key : String → K) (chunksize : Nat)
    (rows : List String) : List (List String) :=
  (chunk_list chunksize rows).map (sort_by key)

/-- Synthetic rows built by `_initial_step` for the random sorting axis:
`initial_file = map(sep.join, zip(index, initial_file))` prepends one
permutation value (in decimal form) and the separator to each row. -/
def synthetic_rows (sep : Char) (perm : List Nat) (rows : List String) : List String :=
  List.zipWith (fun n row => Nat.repr n ++ String.mk [sep] ++ row) perm rows

/-- The characters strictly after the first occurrence of `sep`, if any. -/
def drop_through (sep : Char) : List Char → Option (List Char)
  | [] => none
  | c :: rest => if c = sep then some rest else drop_through sep rest

/-- Python `row.split(sep, 1)[-1]` as used by `_cleanup_step`: the part of
the row after the first separator, or the whole row when `sep` is absent. -/
def split_once_rest (sep : Char) (row : String) : String :=
  match drop_through sep row.data with
  | some rest => String.mk rest
  | none => row

/-! ## Run Merger: `CsvSorter._merging_steps`

`heapq.merge(*to_merge, key=sorting_key)` lazily yields, at each step, the
head of smallest key among the open runs, breaking ties by run order.  It is
modelled by a selection recursion: `k_pick` selects that head. -/

/-- Select, among the runs, the first head of minimal key: returns the
selected row and the runs with that row removed.  `none` iff every run is
exhausted. -/
def k_pick {K : Type} [LinearOrder K] (key : String → K) :
    List (List String) → Option (String × List (List String))
  | [] => none
  | [] :: rest =>
    match k_pick key rest with
    | none => none
    | some (x, rest') => some (x, [] :: rest')
  | (a :: as) :: rest =>
    match k_pick key rest with
    | none => some (a, as :: rest)
    | some (b, rest') =>
      if key b < key a then some (b, (a :: as) :: rest') else some (a, as :: rest)

/-- Fuel-driven k-way merge loop (fuel = total number of rows suffices). -/
def k_merge_go {K : Type} [LinearOrder K] (key : String → K) :
    Nat → List (List String) → List String
  | 0, _ => []
  | fuel + 1, runs =>
    match k_pick key runs with
    | none => []
    | some (x, rest) => x :: k_merge_go key fuel rest

/-- K-way merge of a group of runs, keyed by the active key: the model of
`heapq.merge(*to_merge, key=sorting_key)` streamed into one new run. -/
def k_merge {K : Type} [LinearOrder K] (key : String → K) (runs : List (List String)) :
    List String :=
  k_merge_go key (runs.map List.length).sum runs

/-- One merge pass of `_merging_steps`: the current runs are grouped into
consecutive groups of at most `max_open` runs
(`range(0, len(temp_files), self.max_open)`), and each group is merged into
one run of the next generation. -/
def merge_pass {K : Type} [LinearOrder K] (max_open : Nat) (key : String → K)
    (runs : List (List String)) : List (List String) :=
  (chunk_list max_open runs).map (k_merge key)

/-- Fuel-driven merging loop of `_merging_steps`: repeat merge passes while
more than one run remains.  The fuel, instantiated with the initial number of
runs, is sufficient whenever `max_open ≥ 2` (the source loops forever when
`max_open ≤ 1` and more than one run exists). -/
def merging_go {K : Type} [LinearOrder K] (max_open : Nat) (key : String → K) :
    Nat → List (List String) → List (List String)
  | 0, runs => runs
  | fuel + 1, runs =>
    if runs.length ≤ 1 then runs else merging_go max_open key fuel (merge_pass max_open key runs)

/-- The final generation of runs produced by `CsvSorter._merging_steps`. -/
def merging_steps {K : Type} [LinearOrder K] (max_open : Nat) (key : String → K)
    (runs : List (List String)) : List (List String) :=
  merging_go max_open key runs.length runs

/-- The runs of generation `k` of the merging loop (the loop stops producing
new generations as soon as a generation holds a single run). -/
def generation {K : Type} [LinearOrder K] (max_open : Nat) (key : String → K)
    (runs : List (List String)) : Nat → List (List String)
  | 0 => runs
  | k + 1 =>
    if (generation max_open key runs k).length ≤ 1 then generation max_open key runs k
    else merge_pass max_open key (generation max_open key runs k)

/-- Data rows written by `_cleanup_step` before index removal: the content of
run `0` of the final generation. -/
def sort_file_pipeline {K : Type} [LinearOrder K] (max_open chunksize : Nat)
    (key : String → K) (rows : List String) : List String :=
  (merging_steps max_open key (initial_runs key chunksize rows)).getD 0 []

/-- Data rows of the output of `CsvSorter.sort_file` for a column sorting
axis (the header line, handled separately by the source, is excluded). -/
def sort_file_rows {K : Type} [LinearOrder K] (max_open chunksize : Nat)
    (key : String → K) (rows : List String) : List String :=
  sort_file_pipeline max_open chunksize key rows

/-- Data rows of the output of `CsvSorter.sort_file` for the random sorting
axis: the synthetic index field is prepended to every row before chunking and
stripped from every row by `_cleanup_step` (`row.split(sep, 1)[-1]`). -/
def sort_file_rows_random {K : Type} [LinearOrder K] (max_open chunksize : Nat)
    (key : String → K) (sep : Char) (perm : List Nat) (rows : List String) : List String :=
  (sort_file_pipeline max_open chunksize key (synthetic_rows sep perm rows)).map
    (split_once_rest sep)

/-! ## Validation performed by `CsvSorter.sort_file` -/

/-- Python exceptions raised by the sorter entry points. -/
inductive PyError : Type
  | fileNotFoundError
  | valueError
  | zeroDivisionError
deriving DecidableEq

/-- The checks run by `CsvSorter.sort_file` before and at the start of
sorting, in source order: `os.path.isfile(input_file)` guards a
`FileNotFoundError`; a string sorting axis without header raises
`ValueError`; there is no validation of `chunksize` — the first use of
`chunksize` is the division `n_rows // self.chunksize` in `_initial_step`,
which raises `ZeroDivisionError` when `chunksize = 0`. -/
def sort_file_validate (input_is_file : Bool) (sorting_axis : Option (String ⊕ Nat))
    (has_header : Bool) (chunksize : Int) : Option PyError :=
  if !input_is_file then some PyError.fileNotFoundError
  else if (match sorting_axis with | some (Sum.inl _) => true | _ => false) && !has_header then
    some PyError.valueError
  else if chunksize = 0 then some PyError.zeroDivisionError
  else none

/-! ## File-handle trace of one merge group

`_write_tempfile` opens the output run, then `writelines(merged)` pulls from
`heapq.merge`, whose heap initialisation advances every `_read_tempfile`
generator once, opening every input run (a generator over an empty file
closes it at once); each input run closes when exhausted and the output run
closes last.  The order of the closes during merging does not affect the
simultaneous-open count, which peaks right after the opens. -/

/-- An open or close of the run file of a given index. -/
inductive FileEvent : Type
  | openFile (id : Nat)
  | closeFile (id : Nat)
deriving DecidableEq

/-- Heap initialisation: open every input run in order (an empty run's
generator returns immediately, closing its file). -/
def open_phase : Nat → List (List String) → List FileEvent
  | _, [] => []
  | i, r :: rest =>
    (FileEvent.openFile i :: (if r = [] then [FileEvent.closeFile i] else [])) ++
      open_phase (i + 1) rest

/-- Exhaustion of the non-empty input runs during the merge. -/
def close_phase : Nat → List (List String) → List FileEvent
  | _, [] => []
  | i, r :: rest =>
    (if r = [] then [] else [FileEvent.closeFile i]) ++ close_phase (i + 1) rest

/-- File events of one merge group: the output run (index `runs.length`) is
opened first by `_write_tempfile` and closed last. -/
def merge_group_trace (runs : List (List String)) : List FileEvent :=
  FileEvent.openFile runs.length ::
    (open_phase 0 runs ++ close_phase 0 runs ++ [FileEvent.closeFile runs.length])

/-- Running maximum of the number of simultaneously open files. -/
def peak_go : List FileEvent → Nat → Nat → Nat
  | [], _, best => best
  | FileEvent.openFile _ :: es, cur, best => peak_go es (cur + 1) (max best (cur + 1))
  | FileEvent.closeFile _ :: es, cur, best => peak_go es (cur - 1) best

/-- Maximum number of files simultaneously open along a trace. -/
def peak_open (tr : List FileEvent) : Nat := peak_go tr 0 0

/-- Number of open events of a trace. -/
def count_opens : List FileEvent → Nat
  | [] => 0
  | FileEvent.openFile _ :: es => count_opens es + 1
  | FileEvent.closeFile _ :: es => count_opens es

/-! ## Header Reconciler: `CsvMerger` -/

/-- Python exceptions raised while merging: the schema `ValueError` of
`merge_files` (the spec's `SchemaError`), carrying the missing columns, and
the `IndexError` raised by `fields[i]` in `_sort_csv_row` when a data row has
fewer fields than its header. -/
inductive MergeError : Type
  | schemaError (missing : List String)
  | indexError
deriving DecidableEq

/-- Result of one `merge_files` call on the primary file: the lines appended
to it before the call finished or failed, and the exception if any. -/
structure MergeOutcome : Type where
  appended : List String
  error : Option MergeError
deriving DecidableEq

/-- `CsvMerger._read_header`: parse the first line of a file. -/
def read_header (content : List String) (sep : Char) : List String :=
  parse_csv_row (content.headD "") sep

/-- `CsvMerger._build_index`: for each column of the global header, its first
position in the local header (`list.index`), or `None` when absent. -/
def build_index (local_header global_header : List String) : List (Option Nat) :=
  global_header.map (fun name => local_header.findIdx? (fun c => c == name))

/-- `CsvMerger._sort_csv_row`: parse a row and realign its fields along the
index; `fields[i]` fails (`IndexError`, modelled by `none`) when the row has
fewer than `i + 1` fields. -/
def sort_csv_row (row : String) (index : List (Option Nat)) (sep : Char) :
    Option (List String) :=
  let fields := parse_csv_row row sep
  index.mapM (fun i? => match i? with
    | some i => fields.get? i
    | none => some "")

/-- The row-by-row loop of `merge_files` (slow path): realign each data row
of the merged file and append it, joined with the main file's separator;
stop at the first failing row. -/
def emit_rows (index : List (Option Nat)) (merged_sep main_sep : Char) :
    List String → MergeOutcome
  | [] => ⟨[], none⟩
  | row :: rest =>
    match sort_csv_row row index merged_sep with
    | none => ⟨[], some MergeError.indexError⟩
    | some fields =>
      let out := emit_rows index merged_sep main_sep rest
      ⟨String.intercalate (String.mk [main_sep]) fields :: out.appended, out.error⟩

/-- Embedding of `CsvMerger.merge_files` on file contents given as lists of
lines.  The main file is opened in append mode, so before the first write its
content is untouched; the schema check precedes every write. -/
def merge_files (mainLines mergedLines : List String) (main_sep merged_sep : Char) :
    MergeOutcome :=
  let main_header := read_header mainLines main_sep
  let merged_header := read_header mergedLines merged_sep
  let missing := merged_header.filter (fun c => !(main_header.contains c))
  if missing ≠ [] then ⟨[], some (MergeError.schemaError missing)⟩
  else if main_header = merged_header then ⟨mergedLines.tail, none⟩
  else emit_rows (build_index merged_header main_header) merged_sep main_sep mergedLines.tail

/-! ## Orchestrator: `CsvMerger.stage` and `CsvMerger.merge_staged_files` -/

/-- A staged file: path, separator and encoding, as recorded by `stage`. -/
abbrev StagedFile := String × Char × String

/-- `add_file_if_csv` of `CsvMerger.stage`: record the path only when it ends
with `'.csv'` (`os.path.extsep + 'csv'`, tested with `str.endswith`, modelled
as a character-list suffix test); otherwise do nothing. -/
def stage_one (sep : Char) (encoding : String) (staged : List StagedFile)
    (path : String) : List StagedFile :=
  if ".csv".data.isSuffixOf path.data then staged ++ [(path, sep, encoding)] else staged

/-- Modelled from the spec (`alphanum_sort` of the external `yaptools`
dependency): sort paths by their natural-order key. -/
def alphanum_sort (l : List String) : List String :=
  sort_by alphanum_key l

/-- Embedding of `CsvMerger.stage`.  The filesystem is abstracted by the
`is_file` / `is_dir` predicates and the `list_dir` listing; `os.path.join` is
modelled by inserting `'/'` (path normalisation by `os.path.abspath` is left
out: paths are taken already absolute). -/
def stage (is_file is_dir : String → Bool) (list_dir : String → List String)
    (staged : List StagedFile) (files : List String) (sep : Char) (encoding : String) :
    Except PyError (List StagedFile) :=
  match files with
  | [] => Except.ok staged
  | path :: rest =>
    if is_file path then
      stage is_file is_dir list_dir (stage_one sep encoding staged path) rest sep encoding
    else if is_dir path then
      stage is_file is_dir list_dir
        ((alphanum_sort (list_dir path)).foldl
          (fun st fn => stage_one sep encoding st (path ++ "/" ++ fn)) staged)
        rest sep encoding
    else Except.error PyError.fileNotFoundError

/-- `CsvMerger.get_staged_files_header`: order-preserving union of the staged
files' headers (each file's new columns are computed against the accumulator
before being appended, exactly as the source's list comprehension does). -/
def staged_files_header (contents : String → List String) (staged : List StagedFile) :
    List String :=
  staged.foldl
    (fun acc sf => acc ++ (read_header (contents sf.1) sf.2.1).filter (fun n => !(acc.contains n)))
    []

/-- The merging loop of `merge_staged_files`: each staged file is merged into
the growing output; an exception aborts the loop (rows already appended by
earlier iterations and by the failing call remain written). -/
def merge_loop (contents : String → List String) (sep : Char) (out : List String) :
    List StagedFile → List String × Option MergeError
  | [] => (out, none)
  | sf :: rest =>
    let r := merge_files out (contents sf.1) sep sf.2.1
    match r.error with
    | some e => (out ++ r.appended, some e)
    | none => merge_loop contents sep (out ++ r.appended) rest

/-- Result of `merge_staged_files`: the value of the `staged_files` attribute
after the call, the output file's content, and the exception if any. -/
structure StagedOutcome : Type where
  staged : List StagedFile
  output : List String
  error : Option MergeError
deriving DecidableEq

/-- End of the `merge_staged_files` body: the statement
`self.staged_files = []` stands at the end of the method, not in a `finally`
block, so the staged list is emptied only when the loop raised no exception;
otherwise the attribute keeps the value it had when the exception escaped. -/
def merge_staged_result (staged1 : List StagedFile)
    (r : List String × Option MergeError) : StagedOutcome :=
  match r.2 with
  | some e => ⟨staged1, r.1, some e⟩
  | none => ⟨[], r.1, none⟩

/-- Embedding of `CsvMerger.merge_staged_files` (`remove_merged` only deletes
source files, which the outcome does not track).  The union header is written
first; when `sort_files` is set the staged list is sorted in place (so the
attribute holds the sorted list from then on). -/
def merge_staged_files (contents : String → List String) (staged : List StagedFile)
    (sep : Char) (sort_files : Bool) : StagedOutcome :=
  let header := staged_files_header contents staged
  let out0 := [String.intercalate (String.mk [sep]) header]
  let staged1 := if sort_files then sort_by (fun sf => alphanum_key sf.1) staged else staged
  merge_staged_result staged1 (merge_loop contents sep out0 staged1)

/-! ## Lemmas: stable sorting -/

theorem insert_by_perm {α K : Type} [LinearOrder K] (key : α → K) (a : α) (l : List α) :
    List.Perm (insert_by key a l) (a :: l) := by
  induction l with
  | nil => simp [insert_by]
  | cons b rest ih =>
    unfold insert_by
    by_cases h : key a ≤ key b
    · rw [if_pos h]
    · rw [if_neg h]
      exact (ih.cons b).trans (List.Perm.swap a b rest)

theorem sort_by_perm {α K : Type} [LinearOrder K] (key : α → K) (l : List α) :
    List.Perm (sort_by key l) l := by
  induction l with
  | nil => simp [sort_by]
  | cons a rest ih =>
    exact (insert_by_perm key a (sort_by key rest)).trans (ih.cons a)

theorem insert_by_pairwise {α K : Type} [LinearOrder K] (key : α → K) (a : α) (l : List α)
    (h : l.Pairwise (fun x y => key x ≤ key y)) :
    (insert_by key a l).Pairwise (fun x y => key x ≤ key y) := by
  induction l with
  | nil => simp [insert_by]
  | cons b rest ih =>
    rw [List.pairwise_cons] at h
    unfold insert_by
    by_cases hab : key a ≤ key b
    · rw [if_pos hab]
      refine List.Pairwise.cons ?_ (List.Pairwise.cons h.1 h.2)
      intro y hy
      rcases List.mem_cons.mp hy with hy | hy
      · exact hy ▸ hab
      · exact le_trans hab (h.1 y hy)
    · rw [if_neg hab]
      refine List.Pairwise.cons ?_ (ih h.2)
      intro y hy
      rcases List.mem_cons.mp ((insert_by_perm key a rest).mem_iff.mp hy) with hy | hy
      · exact hy ▸ le_of_lt (lt_of_not_le hab)
      · exact h.1 y hy

theorem sort_by_pairwise {α K : Type} [LinearOrder K] (key : α → K) (l : List α) :
    (sort_by key l).Pairwise (fun x y => key x ≤ key y) := by
  induction l with
  | nil => simp [sort_by]
  | cons a rest ih => exact insert_by_pairwise key a (sort_by key rest) ih

/-! ## Lemmas: `ceil_div` -/

theorem ceil_div_one (n : Nat) : ceil_div n 1 = n := by
  simp [ceil_div]

theorem ceil_div_le_iff {m : Nat} (hm : 0 < m) (n c : Nat) :
    ceil_div n m ≤ c ↔ n ≤ c * m := by
  unfold ceil_div
  rw [Nat.div_le_iff_le_mul_add_pred hm, Nat.mul_comm m c]
  have hm1 := hm
  generalize c * m = t
  omega

theorem ceil_div_ceil_div {a b : Nat} (ha : 0 < a) (hb : 0 < b) (n : Nat) :
    ceil_div (ceil_div n a) b = ceil_div n (a * b) := by
  have hab : 0 < a * b := Nat.mul_pos ha hb
  have key : ∀ c, ceil_div (ceil_div n a) b ≤ c ↔ ceil_div n (a * b) ≤ c := by
    intro c
    rw [ceil_div_le_iff hb, ceil_div_le_iff ha, ceil_div_le_iff hab,
      Nat.mul_assoc, Nat.mul_comm b a]
  exact le_antisymm ((key _).mpr le_rfl) ((key _).mp le_rfl)

theorem ceil_div_lt_self {n m : Nat} (hn : 2 ≤ n) (hm : 2 ≤ m) : ceil_div n m < n := by
  unfold ceil_div
  rw [Nat.div_lt_iff_lt_mul (by omega : 0 < m)]
  obtain ⟨p, rfl⟩ : ∃ p, n = p + 2 := ⟨n - 2, by omega⟩
  obtain ⟨q, rfl⟩ : ∃ q, m = q + 2 := ⟨m - 2, by omega⟩
  have expand : (p + 2) * (q + 2) = p * q + 2 * p + 2 * q + 4 := by ring
  rw [expand]
  have hpq := Nat.zero_le (p * q)
  omega

theorem ceil_div_pos {n m : Nat} (hn : 1 ≤ n) (hm : 1 ≤ m) : 1 ≤ ceil_div n m := by
  by_contra h
  push_neg at h
  have h0 : ceil_div n m ≤ 0 := by omega
  have := (ceil_div_le_iff (by omega : 0 < m) n 0).mp h0
  omega

/-! ## Lemmas: chunking -/

theorem chunk_list_go_join {α : Type} {n fuel : Nat} {l : List α}
    (hf : l.length ≤ fuel) (hn : 1 ≤ n) : (chunk_list_go n fuel l).flatten = l := by
  induction fuel generalizing l with
  | zero =>
    have : l = [] := List.length_eq_zero.mp (Nat.le_zero.mp hf)
    subst this; simp [chunk_list_go]
  | succ fuel ih =>
    cases l with
    | nil => simp [chunk_list_go]
    | cons x xs =>
      have hstep : chunk_list_go n (fuel + 1) (x :: xs) =
          List.take n (x :: xs) :: chunk_list_go n fuel (List.drop n (x :: xs)) := rfl
      rw [hstep, List.flatten_cons,
        ih (by simp only [List.length_drop, List.length_cons] at hf ⊢ ; omega),
        List.take_append_drop]

theorem chunk_list_join {α : Type} {n : Nat} (hn : 1 ≤ n) (l : List α) :
    (chunk_list n l).flatten = l :=
  chunk_list_go_join (Nat.le_refl _) hn

theorem ceil_div_succ_chunk {n a : Nat} (hn : 1 ≤ n) (ha : 1 ≤ a) :
    ceil_div a n = ceil_div (a - n) n + 1 := by
  by_cases h : a ≤ n
  · have h0 : a - n = 0 := by omega
    rw [h0]
    unfold ceil_div
    have h1 : (0 + n - 1) / n = 0 := Nat.div_eq_of_lt (by omega)
    rw [h1]
    have hle : 1 ≤ (a + n - 1) / n := by
      rw [Nat.le_div_iff_mul_le (by omega)]; omega
    have hlt : (a + n - 1) / n < 2 := by
      rw [Nat.div_lt_iff_lt_mul (by omega)]; omega
    omega
  · unfold ceil_div
    have h2 : a + n - 1 = (a - n + n - 1) + n := by omega
    rw [h2, Nat.add_div_right _ (by omega)]

theorem chunk_list_go_length {α : Type} {n fuel : Nat} {l : List α}
    (hf : l.length ≤ fuel) (hn : 1 ≤ n) :
    (chunk_list_go n fuel l).length = ceil_div l.length n := by
  induction fuel generalizing l with
  | zero =>
    have : l = [] := List.length_eq_zero.mp (Nat.le_zero.mp hf)
    subst this
    simp [chunk_list_go, ceil_div, Nat.div_eq_of_lt (by omega : n - 1 < n)]
  | succ fuel ih =>
    cases l with
    | nil => simp [chunk_list_go, ceil_div, Nat.div_eq_of_lt (by omega : n - 1 < n)]
    | cons x xs =>
      have hstep : chunk_list_go n (fuel + 1) (x :: xs) =
          List.take n (x :: xs) :: chunk_list_go n fuel (List.drop n (x :: xs)) := rfl
      have hlen : (List.drop n (x :: xs)).length = (x :: xs).length - n := by
        simp [List.length_drop]
      rw [hstep, List.length_cons,
        ih (by simp only [List.length_cons] at hlen hf; omega), hlen]
      conv_rhs => rw [ceil_div_succ_chunk hn (by simp only [List.length_cons]; omega)]

theorem chunk_list_length {α : Type} {n : Nat} (hn : 1 ≤ n) (l : List α) :
    (chunk_list n l).length = ceil_div l.length n :=
  chunk_list_go_length (Nat.le_refl _) hn

theorem chunk_list_go_mem_length {α : Type} {n fuel : Nat} {l : List α}
    (hf : l.length ≤ fuel) (hn : 1 ≤ n) :
    ∀ c ∈ chunk_list_go n fuel l, c.length ≤ n := by
  induction fuel generalizing l with
  | zero =>
    have : l = [] := List.length_eq_zero.mp (Nat.le_zero.mp hf)
    subst this; simp [chunk_list_go]
  | succ fuel ih =>
    cases l with
    | nil => simp [chunk_list_go]
    | cons x xs =>
      have hstep : chunk_list_go n (fuel + 1) (x :: xs) =
          List.take n (x :: xs) :: chunk_list_go n fuel (List.drop n (x :: xs)) := rfl
      rw [hstep]
      intro c hc
      rcases List.mem_cons.mp hc with hc | hc
      · subst hc; simp [List.length_take]
      · exact ih (by simp only [List.length_drop, List.length_cons] at hf ⊢ ; omega) c hc

theorem chunk_list_mem_length {α : Type} {n : Nat} (hn : 1 ≤ n) (l : List α) :
    ∀ c ∈ chunk_list n l, c.length ≤ n :=
  chunk_list_go_mem_length (Nat.le_refl _) hn

theorem chunk_list_ne_nil {α : Type} {n : Nat} {l : List α} (hl : l ≠ []) :
    chunk_list n l ≠ [] := by
  unfold chunk_list
  cases l with
  | nil => exact absurd rfl hl
  | cons x xs => simp [chunk_list_go]

/-! ## Lemmas: k-way merge -/

/-- Every run of the list is individually sorted by the key. -/
def runs_sorted {K : Type} [LinearOrder K] (key : String → K) (runs : List (List String)) :
    Prop :=
  ∀ r ∈ runs, r.Pairwise (fun a b => key a ≤ key b)

theorem k_pick_none {K : Type} [LinearOrder K] (key : String → K) :
    ∀ runs : List (List String), k_pick key runs = none → runs.flatten = []
  | [], _ => rfl
  | [] :: rs, h => by
    rw [List.flatten_cons, List.nil_append]
    apply k_pick_none key rs
    cases hr : k_pick key rs with
    | none => rfl
    | some p => simp [k_pick, hr] at h
  | (a :: as) :: rs, h => by
    exfalso
    cases hr : k_pick key rs with
    | none => simp [k_pick, hr] at h
    | some p =>
      obtain ⟨b, rest'⟩ := p
      by_cases hba : key b < key a <;> simp [k_pick, hr, hba] at h

theorem k_pick_some_perm {K : Type} [LinearOrder K] (key : String → K) :
    ∀ (runs rest : List (List String)) (x : String),
      k_pick key runs = some (x, rest) →
      List.Perm runs.flatten (x :: rest.flatten)
  | [], _, _, h => by cases h
  | [] :: rs, rest, x, h => by
    cases hr : k_pick key rs with
    | none => simp [k_pick, hr] at h
    | some p =>
      obtain ⟨b, rest'⟩ := p
      simp only [k_pick, hr] at h
      obtain ⟨rfl, rfl⟩ := (Prod.mk.injEq _ _ _ _).mp (Option.some.inj h)
      rw [List.flatten_cons, List.nil_append, List.flatten_cons, List.nil_append]
      exact k_pick_some_perm key rs rest' b hr
  | (a :: as) :: rs, rest, x, h => by
    cases hr : k_pick key rs with
    | none =>
      simp only [k_pick, hr] at h
      obtain ⟨rfl, rfl⟩ := (Prod.mk.injEq _ _ _ _).mp (Option.some.inj h)
      rw [List.flatten_cons, List.flatten_cons, List.cons_append]
    | some p =>
      obtain ⟨b, rest'⟩ := p
      by_cases hba : key b < key a
      · simp only [k_pick, hr, if_pos hba] at h
        obtain ⟨rfl, rfl⟩ := (Prod.mk.injEq _ _ _ _).mp (Option.some.inj h)
        have ihp := k_pick_some_perm key rs rest' b hr
        rw [List.flatten_cons, List.flatten_cons]
        exact ((ihp.append_left (a :: as)).trans List.perm_middle)
      · simp only [k_pick, hr, if_neg hba] at h
        obtain ⟨rfl, rfl⟩ := (Prod.mk.injEq _ _ _ _).mp (Option.some.inj h)
        rw [List.flatten_cons, List.flatten_cons, List.cons_append]

theorem k_pick_some_min {K : Type} [LinearOrder K] (key : String → K) :
    ∀ (runs rest : List (List String)) (x : String),
      runs_sorted key runs → k_pick key runs = some (x, rest) →
      (∀ y ∈ rest.flatten, key x ≤ key y) ∧ runs_sorted key rest
  | [], _, _, _, h => by cases h
  | [] :: rs, rest, x, hs, h => by
    have hs' : runs_sorted key rs := fun r hr => hs r (List.mem_cons_of_mem _ hr)
    cases hr : k_pick key rs with
    | none => simp [k_pick, hr] at h
    | some p =>
      obtain ⟨b, rest'⟩ := p
      simp only [k_pick, hr] at h
      obtain ⟨rfl, rfl⟩ := (Prod.mk.injEq _ _ _ _).mp (Option.some.inj h)
      obtain ⟨hmin, hsort⟩ := k_pick_some_min key rs rest' b hs' hr
      refine ⟨?_, ?_⟩
      · intro y hy
        rw [List.flatten_cons, List.nil_append] at hy
        exact hmin y hy
      · intro r hrr
        rcases List.mem_cons.mp hrr with hrr | hrr
        · subst hrr; exact List.Pairwise.nil
        · exact hsort r hrr
  | (a :: as) :: rs, rest, x, hs, h => by
    have hsa := hs (a :: as) (List.mem_cons_self _ _)
    rw [List.pairwise_cons] at hsa
    have hs' : runs_sorted key rs := fun r hr => hs r (List.mem_cons_of_mem _ hr)
    cases hr : k_pick key rs with
    | none =>
      simp only [k_pick, hr] at h
      obtain ⟨rfl, rfl⟩ := (Prod.mk.injEq _ _ _ _).mp (Option.some.inj h)
      have hflat : rs.flatten = [] := k_pick_none key rs hr
      refine ⟨?_, ?_⟩
      · intro y hy
        rw [List.flatten_cons, hflat, List.append_nil] at hy
        exact hsa.1 y hy
      · intro r hrr
        rcases List.mem_cons.mp hrr with hrr | hrr
        · subst hrr; exact hsa.2
        · exact hs' r hrr
    | some p =>
      obtain ⟨b, rest'⟩ := p
      obtain ⟨hmin, hsort⟩ := k_pick_some_min key rs rest' b hs' hr
      have hperm := k_pick_some_perm key rs rest' b hr
      by_cases hba : key b < key a
      · simp only [k_pick, hr, if_pos hba] at h
        obtain ⟨rfl, rfl⟩ := (Prod.mk.injEq _ _ _ _).mp (Option.some.inj h)
        refine ⟨?_, ?_⟩
        · intro y hy
          rw [List.flatten_cons] at hy
          rcases List.mem_append.mp hy with hy | hy
          · rcases List.mem_cons.mp hy with hy | hy
            · exact hy ▸ le_of_lt hba
            · exact le_trans (le_of_lt hba) (hsa.1 y hy)
          · exact hmin y hy
        · intro r hrr
          rcases List.mem_cons.mp hrr with hrr | hrr
          · subst hrr; exact List.pairwise_cons.mpr hsa
          · exact hsort r hrr
      · simp only [k_pick, hr, if_neg hba] at h
        obtain ⟨rfl, rfl⟩ := (Prod.mk.injEq _ _ _ _).mp (Option.some.inj h)
        have hab : key a ≤ key b := le_of_not_lt hba
        refine ⟨?_, ?_⟩
        · intro y hy
          rw [List.flatten_cons] at hy
          rcases List.mem_append.mp hy with hy | hy
          · exact hsa.1 y hy
          · rcases List.mem_cons.mp (hperm.mem_iff.mp hy) with hy | hy
            · exact hy ▸ hab
            · exact le_trans hab (hmin y hy)
        · intro r hrr
          rcases List.mem_cons.mp hrr with hrr | hrr
          · subst hrr; exact hsa.2
          · exact hs' r hrr

theorem k_merge_go_mem {K : Type} [LinearOrder K] (key : String → K) :
    ∀ (fuel : Nat) (runs : List (List String)) (y : String),
      y ∈ k_merge_go key fuel runs → y ∈ runs.flatten := by
  intro fuel
  induction fuel with
  | zero => intro runs y h; simp [k_merge_go] at h
  | succ fuel ih =>
    intro runs y h
    cases hp : k_pick key runs with
    | none => simp [k_merge_go, hp] at h
    | some p =>
      obtain ⟨x, rest⟩ := p
      simp only [k_merge_go, hp] at h
      have hperm := k_pick_some_perm key runs rest x hp
      rcases List.mem_cons.mp h with h | h
      · subst h; exact hperm.mem_iff.mpr (List.mem_cons_self _ _)
      · exact hperm.mem_iff.mpr (List.mem_cons_of_mem _ (ih rest y h))

theorem k_merge_go_perm {K : Type} [LinearOrder K] (key : String → K) :
    ∀ (fuel : Nat) (runs : List (List String)), runs.flatten.length ≤ fuel →
      List.Perm (k_merge_go key fuel runs) runs.flatten := by
  intro fuel
  induction fuel with
  | zero =>
    intro runs h
    have hres : runs.flatten = [] := List.length_eq_zero.mp (Nat.le_zero.mp h)
    simp [k_merge_go, hres]
  | succ fuel ih =>
    intro runs h
    cases hp : k_pick key runs with
    | none =>
      simp only [k_merge_go, hp]
      rw [k_pick_none key runs hp]
    | some p =>
      obtain ⟨x, rest⟩ := p
      simp only [k_merge_go, hp]
      have hperm := k_pick_some_perm key runs rest x hp
      have hlen : rest.flatten.length ≤ fuel := by
        have heq := hperm.length_eq
        rw [List.length_cons] at heq
        omega
      exact ((ih rest hlen).cons x).trans hperm.symm

theorem k_merge_go_sorted {K : Type} [LinearOrder K] (key : String → K) :
    ∀ (fuel : Nat) (runs : List (List String)), runs_sorted key runs →
      (k_merge_go key fuel runs).Pairwise (fun a b => key a ≤ key b) := by
  intro fuel
  induction fuel with
  | zero => intro runs _; simp [k_merge_go]
  | succ fuel ih =>
    intro runs hs
    cases hp : k_pick key runs with
    | none => simp [k_merge_go, hp]
    | some p =>
      obtain ⟨x, rest⟩ := p
      simp only [k_merge_go, hp]
      obtain ⟨hmin, hsorted⟩ := k_pick_some_min key runs rest x hs hp
      refine List.Pairwise.cons ?_ (ih rest hsorted)
      intro y hy
      exact hmin y (k_merge_go_mem key fuel rest y hy)

theorem k_merge_perm {K : Type} [LinearOrder K] (key : String → K)
    (runs : List (List String)) : List.Perm (k_merge key runs) runs.flatten := by
  unfold k_merge
  apply k_merge_go_perm
  rw [List.length_flatten]

theorem k_merge_sorted {K : Type} [LinearOrder K] (key : String → K)
    (runs : List (List String)) (hs : runs_sorted key runs) :
    (k_merge key runs).Pairwise (fun a b => key a ≤ key b) :=
  k_merge_go_sorted key _ runs hs

/-! ## Lemmas: merge passes and the merging loop -/

theorem flatten_map_k_merge_perm {K : Type} [LinearOrder K] (key : String → K) :
    ∀ gs : List (List (List String)),
      List.Perm (gs.map (k_merge key)).flatten gs.flatten.flatten := by
  intro gs
  induction gs with
  | nil => simp
  | cons g rest ih =>
    simp only [List.map_cons, List.flatten_cons]
    rw [List.flatten_append]
    exact (k_merge_perm key g).append ih

theorem merge_pass_flatten_perm {K : Type} [LinearOrder K] {M : Nat} (hM : 1 ≤ M)
    (key : String → K) (runs : List (List String)) :
    List.Perm (merge_pass M key runs).flatten runs.flatten := by
  unfold merge_pass
  have h := flatten_map_k_merge_perm key (chunk_list M runs)
  rwa [chunk_list_join hM runs] at h

theorem merge_pass_sorted {K : Type} [LinearOrder K] {M : Nat} (hM : 1 ≤ M)
    (key : String → K) (runs : List (List String)) (hs : runs_sorted key runs) :
    runs_sorted key (merge_pass M key runs) := by
  intro r hr
  unfold merge_pass at hr
  obtain ⟨g, hg, rfl⟩ := List.mem_map.mp hr
  apply k_merge_sorted
  intro r' hr'
  apply hs
  have hmem : r' ∈ (chunk_list M runs).flatten := List.mem_flatten.mpr ⟨g, hg, hr'⟩
  rwa [chunk_list_join hM runs] at hmem

theorem merge_pass_length {K : Type} [LinearOrder K] {M : Nat} (hM : 1 ≤ M)
    (key : String → K) (runs : List (List String)) :
    (merge_pass M key runs).length = ceil_div runs.length M := by
  unfold merge_pass
  rw [List.length_map, chunk_list_length hM]

theorem merge_pass_ne_nil {K : Type} [LinearOrder K] {M : Nat}
    (key : String → K) {runs : List (List String)} (h : runs ≠ []) :
    merge_pass M key runs ≠ [] := by
  unfold merge_pass
  intro hc
  exact (chunk_list_ne_nil h) (List.map_eq_nil.mp hc)

theorem merging_go_flatten_perm {K : Type} [LinearOrder K] {M : Nat} (hM : 1 ≤ M)
    (key : String → K) :
    ∀ (fuel : Nat) (runs : List (List String)),
      List.Perm (merging_go M key fuel runs).flatten runs.flatten := by
  intro fuel
  induction fuel with
  | zero => intro runs; exact List.Perm.refl _
  | succ fuel ih =>
    intro runs
    by_cases h : runs.length ≤ 1
    · simp only [merging_go, if_pos h]
      exact List.Perm.refl _
    · simp only [merging_go, if_neg h]
      exact (ih (merge_pass M key runs)).trans (merge_pass_flatten_perm hM key runs)

theorem merging_go_sorted {K : Type} [LinearOrder K] {M : Nat} (hM : 1 ≤ M)
    (key : String → K) :
    ∀ (fuel : Nat) (runs : List (List String)), runs_sorted key runs →
      runs_sorted key (merging_go M key fuel runs) := by
  intro fuel
  induction fuel with
  | zero => intro runs hs; exact hs
  | succ fuel ih =>
    intro runs hs
    by_cases h : runs.length ≤ 1
    · simp only [merging_go, if_pos h]; exact hs
    · simp only [merging_go, if_neg h]
      exact ih (merge_pass M key runs) (merge_pass_sorted hM key runs hs)

theorem merging_go_length_le {K : Type} [LinearOrder K] {M : Nat} (hM : 2 ≤ M)
    (key : String → K) :
    ∀ (fuel : Nat) (runs : List (List String)), runs.length ≤ fuel →
      (merging_go M key fuel runs).length ≤ 1 := by
  intro fuel
  induction fuel with
  | zero =>
    intro runs h
    have : runs = [] := List.length_eq_zero.mp (Nat.le_zero.mp h)
    subst this
    simp [merging_go]
  | succ fuel ih =>
    intro runs h
    by_cases h1 : runs.length ≤ 1
    · simp only [merging_go, if_pos h1]; exact h1
    · simp only [merging_go, if_neg h1]
      apply ih
      rw [merge_pass_length (by omega : 1 ≤ M) key runs]
      have hlt : ceil_div runs.length M < runs.length :=
        ceil_div_lt_self (by omega) hM
      omega

theorem merging_go_ne_nil {K : Type} [LinearOrder K] (M : Nat) (key : String → K) :
    ∀ (fuel : Nat) (runs : List (List String)), runs ≠ [] →
      merging_go M key fuel runs ≠ [] := by
  intro fuel
  induction fuel with
  | zero => intro runs h; exact h
  | succ fuel ih =>
    intro runs h
    by_cases h1 : runs.length ≤ 1
    · simp only [merging_go, if_pos h1]; exact h
    · simp only [merging_go, if_neg h1]
      exact ih (merge_pass M key runs) (merge_pass_ne_nil key h)

/-! ## Lemmas: the end-to-end sorting pipeline -/

theorem initial_runs_flatten_perm {K : Type} [LinearOrder K] {c : Nat} (hc : 1 ≤ c)
    (key : String → K) (rows : List String) :
    List.Perm (initial_runs key c rows).flatten rows := by
  unfold initial_runs
  have h : ∀ gs : List (List String),
      List.Perm (gs.map (sort_by key)).flatten gs.flatten := by
    intro gs
    induction gs with
    | nil => simp
    | cons g rest ih =>
      simp only [List.map_cons, List.flatten_cons]
      exact (sort_by_perm key g).append ih
  have h2 := h (chunk_list c rows)
  rwa [chunk_list_join hc rows] at h2

theorem initial_runs_sorted {K : Type} [LinearOrder K] (c : Nat)
    (key : String → K) (rows : List String) :
    runs_sorted key (initial_runs key c rows) := by
  intro r hr
  unfold initial_runs at hr
  obtain ⟨g, _, rfl⟩ := List.mem_map.mp hr
  exact sort_by_pairwise key g

theorem initial_runs_ne_nil {K : Type} [LinearOrder K] {c : Nat}
    (key : String → K) {rows : List String} (h : rows ≠ []) :
    initial_runs key c rows ≠ [] := by
  unfold initial_runs
  intro hc
  exact (chunk_list_ne_nil h) (List.map_eq_nil.mp hc)

/-- With `max_open ≥ 2`, `chunksize ≥ 1` and a non-empty row list, the
merging loop converges to exactly one run, which is run `0` read by
`_cleanup_step`, and that run is a permutation of the input rows. -/
theorem sort_file_pipeline_perm {K : Type} [LinearOrder K] {M c : Nat}
    (hM : 2 ≤ M) (hc : 1 ≤ c) (key : String → K) {rows : List String}
    (hrows : rows ≠ []) :
    List.Perm (sort_file_pipeline M c key rows) rows := by
  unfold sort_file_pipeline merging_steps
  set runs := initial_runs key c rows with hruns
  have hne := merging_go_ne_nil M key runs.length runs
    (initial_runs_ne_nil key hrows)
  have hle := merging_go_length_le hM key runs.length runs (Nat.le_refl _)
  have hperm := merging_go_flatten_perm (by omega : 1 ≤ M) key runs.length runs
  obtain ⟨r, rs, hr⟩ := List.exists_cons_of_ne_nil hne
  have hrs : rs = [] := by
    rw [hr] at hle
    simp only [List.length_cons] at hle
    exact List.length_eq_zero.mp (by omega)
  subst hrs
  rw [hr] at hperm ⊢
  simp only [List.getD, List.get?, Option.getD_some]
  rw [List.flatten_cons, List.flatten_nil, List.append_nil] at hperm
  exact hperm.trans (initial_runs_flatten_perm hc key rows)

/-- Every run of the final generation is sorted by the key; in particular so
is run `0`, the one `_cleanup_step` copies out. -/
theorem sort_file_pipeline_sorted {K : Type} [LinearOrder K] {M c : Nat}
    (hM : 2 ≤ M) (key : String → K) (rows : List String) :
    (sort_file_pipeline M c key rows).Pairwise (fun a b => key a ≤ key b) := by
  unfold sort_file_pipeline merging_steps
  set runs := initial_runs key c rows with hruns
  have hs := merging_go_sorted (by omega : 1 ≤ M) key runs.length runs
    (initial_runs_sorted c key rows)
  cases hres : merging_go M key runs.length runs with
  | nil => simp [hres]
  | cons r rs =>
    simp only [hres, List.getD, List.get?, Option.getD_some]
    exact hs r (hres ▸ List.mem_cons_self r rs)

/-! ## Lemmas: run counts per generation -/

theorem generation_length {K : Type} [LinearOrder K] (M : Nat) (key : String → K)
    (runs : List (List String)) (k : Nat) (hM : 2 ≤ M)
    (hstop : ∀ j, j < k → 1 < ceil_div runs.length (M ^ j)) :
    (generation M key runs k).length = ceil_div runs.length (M ^ k) := by
  induction k with
  | zero => simp [generation, pow_zero, ceil_div_one]
  | succ k ih =>
    have hprev : (generation M key runs k).length = ceil_div runs.length (M ^ k) :=
      ih (fun j hj => hstop j (Nat.lt_succ_of_lt hj))
    have hgt : 1 < ceil_div runs.length (M ^ k) := hstop k (Nat.lt_succ_self k)
    have hcond : ¬ (generation M key runs k).length ≤ 1 := by omega
    rw [generation, if_neg hcond, merge_pass_length (by omega : 1 ≤ M) key _, hprev,
      ceil_div_ceil_div (Nat.pos_pow_of_pos k (by omega)) (by omega : 0 < M), ← pow_succ]

/-! ## Lemmas: stripping the synthetic random index -/

theorem drop_through_append (sep : Char) :
    ∀ pre : List Char, (∀ ch ∈ pre, ch ≠ sep) → ∀ post : List Char,
      drop_through sep (pre ++ sep :: post) = some post := by
  intro pre
  induction pre with
  | nil => intro _ post; simp [drop_through]
  | cons c cs ih =>
    intro h post
    have hc : c ≠ sep := h c (List.mem_cons_self _ _)
    simp only [List.cons_append, drop_through, if_neg hc]
    exact ih (fun ch hch => h ch (List.mem_cons_of_mem _ hch)) post

theorem split_once_rest_synthetic (sep : Char) (n : Nat) (row : String)
    (h : ∀ ch ∈ (Nat.repr n).data, ch ≠ sep) :
    split_once_rest sep (Nat.repr n ++ String.mk [sep] ++ row) = row := by
  unfold split_once_rest
  have hdata : (Nat.repr n ++ String.mk [sep] ++ row).data
      = (Nat.repr n).data ++ sep :: row.data := by
    simp [String.data_append, List.append_assoc]
  rw [hdata, drop_through_append sep _ h row.data]

theorem strip_synthetic_rows (sep : Char) :
    ∀ (perm : List Nat) (rows : List String),
      (∀ n ∈ perm, ∀ ch ∈ (Nat.repr n).data, ch ≠ sep) →
      perm.length = rows.length →
      (synthetic_rows sep perm rows).map (split_once_rest sep) = rows := by
  intro perm
  induction perm with
  | nil =>
    intro rows _ hlen
    cases rows with
    | nil => rfl
    | cons r rs => simp at hlen
  | cons n ns ih =>
    intro rows hsep hlen
    cases rows with
    | nil => simp [synthetic_rows]
    | cons r rs =>
      simp only [synthetic_rows, List.zipWith_cons_cons, List.map_cons]
      rw [split_once_rest_synthetic sep n r (hsep n (List.mem_cons_self _ _))]
      have hrec := ih rs (fun m hm => hsep m (List.mem_cons_of_mem _ hm))
        (by simp only [List.length_cons] at hlen; omega)
      unfold synthetic_rows at hrec
      rw [hrec]

/-! ## Claim C1 -/

/-- C1 as stated is false for the random sorting axis when the separator is
a digit occurring in a synthetic index value: with `sep = '1'` and
permutation `[1, 0]` on `["a", "b"]`, the call succeeds but
`_cleanup_step`'s `row.split(sep, 1)[-1]` splits the row `"11a"` at the
first `'1'` — inside the decimal index — so the output is `["b", "1a"]`,
which is not a permutation of the input rows. -/
theorem sort_file_multiset_counterexample :
    sort_file_rows_random 2 2 alphanum_key '1' [1, 0] ["a", "b"] = ["b", "1a"] ∧
    ¬ List.Perm (sort_file_rows_random 2 2 alphanum_key '1' [1, 0] ["a", "b"])
      ["a", "b"] := by
  decide

/-- C1 amended: after a successful `CsvSorter.sort_file` call (`max_open ≥ 2`,
`chunksize ≥ 1`, at least one data row), the output data rows are a
permutation of the input data rows (same multiset, hence identical row
count); for the random sorting axis this holds after the synthetic leading
index field is stripped from every row, provided the separator character
occurs in no synthetic index value's decimal form (in particular whenever
the separator is not a digit) — otherwise the strip can cut inside the index
and the output rows differ from the input. -/
theorem sort_file_multiset_preservation {K : Type} [LinearOrder K]
    (key : String → K) (M c : Nat) (rows : List String) (sep : Char) (perm : List Nat)
    (hM : 2 ≤ M) (hc : 1 ≤ c) (hrows : rows ≠ [])
    (hlen : perm.length = rows.length)
    (hsep : ∀ n ∈ perm, ∀ ch ∈ (Nat.repr n).data, ch ≠ sep) :
    List.Perm (sort_file_rows M c key rows) rows ∧
    List.Perm (sort_file_rows_random M c key sep perm rows) rows := by
  constructor
  · exact sort_file_pipeline_perm hM hc key hrows
  · unfold sort_file_rows_random
    have hsne : synthetic_rows sep perm rows ≠ [] := by
      unfold synthetic_rows
      cases perm <;> cases rows <;> simp_all
    have hp := sort_file_pipeline_perm hM hc key hsne
    have hmap := hp.map (split_once_rest sep)
    rwa [strip_synthetic_rows sep perm rows hsep hlen] at hmap

/-- Witness for C1: a concrete three-row file sorted with the natural-order
key, for a column axis and for the random axis. -/
theorem sort_file_multiset_preservation_witness :
    List.Perm (sort_file_rows 2 2 alphanum_key ["b", "a", "c"]) ["b", "a", "c"] ∧
    List.Perm (sort_file_rows_random 2 2 alphanum_key ',' [2, 0, 1] ["b", "a", "c"])
      ["b", "a", "c"] :=
  sort_file_multiset_preservation alphanum_key 2 2 ["b", "a", "c"] ',' [2, 0, 1]
    (by decide) (by decide) (by decide) (by decide) (by decide)

/-! ## Claim C2 -/

theorem pairwise_le_getD {K : Type} [LinearOrder K] (key : String → K)
    (l : List String) (h : l.Pairwise (fun a b => key a ≤ key b)) :
    ∀ i, i + 1 < l.length → key (l.getD i "") ≤ key (l.getD (i + 1) "") := by
  intro i hi
  have h1 : i < l.length := by omega
  rw [List.getD_eq_get l "" h1, List.getD_eq_get l "" hi]
  exact List.pairwise_iff_get.mp h ⟨i, h1⟩ ⟨i + 1, hi⟩ (by simp)

/-- C2 as stated is false for the random sorting axis: on the two-row file
`["b\n", "a\n"]` with the identity permutation, the output of `sort_file` is
`["b\n", "a\n"]`, whose adjacent rows violate the natural-order key used as
the active sort key (`alphanum_key "b\n" > alphanum_key "a\n"`): the
synthetic index that carried the order has been stripped. -/
theorem sort_file_order_counterexample :
    (sort_file_rows_random 2 2 alphanum_key ',' [0, 1] ["b\n", "a\n"]).length = 2 ∧
    ¬ alphanum_key
        ((sort_file_rows_random 2 2 alphanum_key ',' [0, 1] ["b\n", "a\n"]).getD 0 "") ≤
      alphanum_key
        ((sort_file_rows_random 2 2 alphanum_key ',' [0, 1] ["b\n", "a\n"]).getD 1 "") := by
  decide

/-- C2 amended: for a column sorting axis, every pair of adjacent output data
rows is in key order; for the random axis the same holds for the rows of the
final merged run before the synthetic index field is stripped. -/
theorem sort_file_order_amended {K : Type} [LinearOrder K]
    (key : String → K) (M c : Nat) (rows : List String) (sep : Char) (perm : List Nat)
    (hM : 2 ≤ M) (hc : 1 ≤ c) :
    (∀ i, i + 1 < (sort_file_rows M c key rows).length →
      key ((sort_file_rows M c key rows).getD i "") ≤
        key ((sort_file_rows M c key rows).getD (i + 1) "")) ∧
    (∀ i, i + 1 < (sort_file_pipeline M c key (synthetic_rows sep perm rows)).length →
      key ((sort_file_pipeline M c key (synthetic_rows sep perm rows)).getD i "") ≤
        key ((sort_file_pipeline M c key (synthetic_rows sep perm rows)).getD (i + 1) "")) :=
  ⟨pairwise_le_getD key _ (sort_file_pipeline_sorted hM key rows),
   pairwise_le_getD key _ (sort_file_pipeline_sorted hM key (synthetic_rows sep perm rows))⟩

/-- Witness for the amended C2: concrete adjacent pairs in key order, for a
column axis on a three-row file and for the random axis before stripping. -/
theorem sort_file_order_amended_witness :
    (alphanum_key ((sort_file_rows 2 2 alphanum_key ["b", "a", "c"]).getD 0 "") ≤
      alphanum_key ((sort_file_rows 2 2 alphanum_key ["b", "a", "c"]).getD 1 "")) ∧
    (alphanum_key ((sort_file_pipeline 2 2 alphanum_key
        (synthetic_rows ',' [1, 0] ["b", "a"])).getD 0 "") ≤
      alphanum_key ((sort_file_pipeline 2 2 alphanum_key
        (synthetic_rows ',' [1, 0] ["b", "a"])).getD 1 "")) :=
  ⟨(sort_file_order_amended alphanum_key 2 2 ["b", "a", "c"] ',' []
      (by decide) (by decide)).1 0 (by decide),
   (sort_file_order_amended alphanum_key 2 2 ["b", "a"] ',' [1, 0]
      (by decide) (by decide)).2 0 (by decide)⟩

/-! ## Claim C4 -/

/-- C4: starting from `R ≥ 1` generation-0 runs with `max_open = M ≥ 2`,
generation `k` of the merging loop holds exactly `ceil(R / M^k)` runs, as
long as no earlier generation already reached a single run; each pass groups
the current runs into consecutive groups of at most `M` and writes one run
per group. -/
theorem run_count_recursion {K : Type} [LinearOrder K] (key : String → K)
    (M k : Nat) (runs : List (List String))
    (hM : 2 ≤ M) (hR : 1 ≤ runs.length)
    (hstop : ∀ j, j < k → 1 < ceil_div runs.length (M ^ j)) :
    (generation M key runs k).length = ceil_div runs.length (M ^ k) :=
  generation_length M key runs k hM hstop

/-- Witness for C4: three generation-0 runs with `max_open = 2` give
`ceil(3 / 2) = 2` runs at generation 1. -/
theorem run_count_recursion_witness :
    (generation 2 alphanum_key [["a"], ["b"], ["c"]] 1).length =
      ceil_div 3 (2 ^ 1) :=
  run_count_recursion alphanum_key 2 1 [["a"], ["b"], ["c"]]
    (by decide) (by decide) (by decide)

/-! ## Claim C5 -/

/-- C5: the row parser is a total function equal to the left-to-right scan
with an inside-quote flag toggled on each `"` (splitting on the separator
only while the flag is false, an unbalanced quote merely leaving the flag
toggled for the rest of the line), and joining the parsed fields with the
separator reconstructs the scanned line, so quote characters are kept in the
field contents. -/
theorem parse_csv_row_spec (row : String) (sep : Char) :
    parse_csv_row row sep =
      (scan_split sep (strip_newlines row.data) false).map (fun cs => String.mk cs) ∧
    join_sep sep (parse_csv_row_chars sep (strip_newlines row.data)) =
      strip_newlines row.data := by
  constructor
  · unfold parse_csv_row
    rw [parse_csv_row_chars_eq_scan]
  · rw [parse_csv_row_chars_eq_scan, join_sep_scan_split]

/-! ## Claim C7 -/

/-- C7 as stated is false for the `chunksize` part: no validation of
`chunksize` exists.  A call with `chunksize = 0` on an existing file reaches
the division `n_rows // self.chunksize` and fails with `ZeroDivisionError`,
not with a parameter validation error, and a call with `chunksize = -5`
raises no error at all at this stage. -/
theorem sort_file_chunksize_counterexample :
    sort_file_validate true none true 0 = some PyError.zeroDivisionError ∧
    sort_file_validate true none true 0 ≠ some PyError.valueError ∧
    sort_file_validate true none true (-5) = none := by decide

/-- C7 amended: `sort_file` fails with `FileNotFoundError` (the spec's
`PathError`) when the source file is missing, and with `ValueError` (the
spec's `ParameterError`) when the sorting axis is a column name but
`has_header` is false; `chunksize` is not validated — a call with
`chunksize = 0` that passes the other checks fails with `ZeroDivisionError`
in `_initial_step`. -/
theorem sort_file_validation_amended (f : Bool) (ax : Option (String ⊕ Nat))
    (hh : Bool) (cs : Int) :
    (f = false → sort_file_validate f ax hh cs = some PyError.fileNotFoundError) ∧
    (∀ name, f = true → ax = some (Sum.inl name) → hh = false →
      sort_file_validate f ax hh cs = some PyError.valueError) ∧
    (f = true →
      ((match ax with | some (Sum.inl _) => true | _ => false) && !hh) = false →
      cs = 0 → sort_file_validate f ax hh cs = some PyError.zeroDivisionError) := by
  refine ⟨?_, ?_, ?_⟩
  · intro hf; subst hf; simp [sort_file_validate]
  · intro name hf hax hhh; subst hf; subst hax; subst hhh; simp [sort_file_validate]
  · intro hf hax hcs; subst hf; subst hcs; simp [sort_file_validate, hax]

/-- Witness for the amended C7: the three failure modes at concrete calls. -/
theorem sort_file_validation_amended_witness :
    sort_file_validate false none true 5 = some PyError.fileNotFoundError ∧
    sort_file_validate true (some (Sum.inl "col")) false 5 = some PyError.valueError ∧
    sort_file_validate true none true 0 = some PyError.zeroDivisionError :=
  ⟨(sort_file_validation_amended false none true 5).1 rfl,
   (sort_file_validation_amended true (some (Sum.inl "col")) false 5).2.1 "col" rfl rfl rfl,
   (sort_file_validation_amended true none true 0).2.2 rfl (by decide) rfl⟩

/-! ## Claim C8 -/

theorem count_opens_append (a b : List FileEvent) :
    count_opens (a ++ b) = count_opens a + count_opens b := by
  induction a with
  | nil => simp [count_opens]
  | cons e es ih => cases e <;> simp [count_opens, ih] <;> omega

theorem count_opens_open_phase : ∀ (i : Nat) (runs : List (List String)),
    count_opens (open_phase i runs) = runs.length := by
  intro i runs
  induction runs generalizing i with
  | nil => simp [open_phase, count_opens]
  | cons r rest ih =>
    by_cases hr : r = [] <;>
      simp [open_phase, hr, count_opens, count_opens_append, ih]

theorem count_opens_close_phase : ∀ (i : Nat) (runs : List (List String)),
    count_opens (close_phase i runs) = 0 := by
  intro i runs
  induction runs generalizing i with
  | nil => simp [close_phase, count_opens]
  | cons r rest ih =>
    by_cases hr : r = [] <;>
      simp [close_phase, hr, count_opens, count_opens_append, ih]

theorem peak_go_le (tr : List FileEvent) :
    ∀ (cur best : Nat), peak_go tr cur best ≤ max best (cur + count_opens tr) := by
  induction tr with
  | nil => intro cur best; simp [peak_go, count_opens]
  | cons e es ih =>
    intro cur best
    cases e with
    | openFile i =>
      simp only [peak_go, count_opens]
      have h := ih (cur + 1) (max best (cur + 1))
      omega
    | closeFile i =>
      simp only [peak_go, count_opens]
      have h := ih (cur - 1) best
      omega

theorem peak_open_le_count (tr : List FileEvent) : peak_open tr ≤ count_opens tr := by
  have h := peak_go_le tr 0 0
  simpa [peak_open] using h

/-- C8 as stated is false: with `max_open = 2` and two non-empty generation-0
runs, the single merge group (the whole run list, since its size does not
exceed `max_open`) holds 3 Run files open at once — the two input runs plus
the output run of the next generation opened by `_write_tempfile`. -/
theorem merge_group_handles_counterexample :
    chunk_list 2 [["a\n"], ["b\n"]] = [[["a\n"], ["b\n"]]] ∧
    peak_open (merge_group_trace [["a\n"], ["b\n"]]) = 3 := by decide

/-- C8 amended: a merge group (any group of the `chunk_list max_open`
partition of a generation) never holds more than `max_open` Run files open
for reading — the bound the source documents for `max_open` — and never more
than `max_open + 1` Run files in total once the output Run of the next
generation is counted. -/
theorem merge_group_handles_amended (M : Nat) (temp : List (List String))
    (g : List (List String)) (hM : 1 ≤ M) (hg : g ∈ chunk_list M temp) :
    peak_open (open_phase 0 g ++ close_phase 0 g) ≤ M ∧
    peak_open (merge_group_trace g) ≤ M + 1 := by
  have hlen : g.length ≤ M := chunk_list_mem_length hM temp g hg
  constructor
  · have h1 := peak_open_le_count (open_phase 0 g ++ close_phase 0 g)
    rw [count_opens_append, count_opens_open_phase, count_opens_close_phase] at h1
    omega
  · have h1 := peak_open_le_count (merge_group_trace g)
    have h2 : count_opens (merge_group_trace g) = g.length + 1 := by
      simp [merge_group_trace, count_opens, count_opens_append,
        count_opens_open_phase, count_opens_close_phase]
    omega

/-- Witness for the amended C8: the concrete two-run group with
`max_open = 2`. -/
theorem merge_group_handles_amended_witness :
    peak_open (open_phase 0 [["a\n"], ["b\n"]] ++ close_phase 0 [["a\n"], ["b\n"]]) ≤ 2 ∧
    peak_open (merge_group_trace [["a\n"], ["b\n"]]) ≤ 2 + 1 :=
  merge_group_handles_amended 2 [["a\n"], ["b\n"]] [["a\n"], ["b\n"]]
    (by decide) (by decide)

/-! ## Claim C3 -/

/-- C3: when the merged file's parsed header has columns absent from the main
file's parsed header, `merge_files` fails with the schema error naming
exactly those columns and appends nothing: the main file's content is exactly
what it was before the call. -/
theorem merge_files_schema_rejection (mainLines mergedLines : List String)
    (main_sep merged_sep : Char)
    (hmissing : (read_header mergedLines merged_sep).filter
      (fun c => !((read_header mainLines main_sep).contains c)) ≠ []) :
    merge_files mainLines mergedLines main_sep merged_sep =
      ⟨[], some (MergeError.schemaError ((read_header mergedLines merged_sep).filter
        (fun c => !((read_header mainLines main_sep).contains c))))⟩ ∧
    mainLines ++ (merge_files mainLines mergedLines main_sep merged_sep).appended =
      mainLines := by
  have h : merge_files mainLines mergedLines main_sep merged_sep =
      ⟨[], some (MergeError.schemaError ((read_header mergedLines merged_sep).filter
        (fun c => !((read_header mainLines main_sep).contains c))))⟩ := by
    unfold merge_files
    rw [if_pos hmissing]
  exact ⟨h, by rw [h, List.append_nil]⟩

/-- Witness for C3: merging a file with header `b,z` into one with header
`a;b` fails with the schema error naming `z` and appends nothing. -/
theorem merge_files_schema_rejection_witness :
    merge_files ["a;b", "1;2"] ["b,z", "x,y"] ';' ',' =
      ⟨[], some (MergeError.schemaError ["z"])⟩ ∧
    ["a;b", "1;2"] ++ (merge_files ["a;b", "1;2"] ["b,z", "x,y"] ';' ',').appended =
      ["a;b", "1;2"] := by
  have h := merge_files_schema_rejection ["a;b", "1;2"] ["b,z", "x,y"] ';' ',' (by decide)
  exact ⟨h.1.trans (by decide), h.2⟩

/-! ## Claim C6 -/

theorem mapM_map_eq_some {α β γ : Type} (f : α → β) (g : β → Option γ) (h : α → γ)
    (hpt : ∀ a, g (f a) = some (h a)) :
    ∀ l : List α, (l.map f).mapM g = some (l.map h) := by
  intro l
  induction l with
  | nil => rfl
  | cons a rest ih =>
    rw [List.map_cons, List.map_cons, ← List.mapM'_eq_mapM]
    rw [← List.mapM'_eq_mapM] at ih
    simp [List.mapM', hpt a, ih]

theorem sort_csv_row_realigned (row : String) (H1 H2 : List String) (sep : Char)
    (harity : H2.length ≤ (parse_csv_row row sep).length) :
    sort_csv_row row (build_index H2 H1) sep = some (H1.map (fun name =>
      match H2.findIdx? (fun c => c == name) with
      | some i => (parse_csv_row row sep).getD i ""
      | none => "")) := by
  unfold sort_csv_row build_index
  apply mapM_map_eq_some
  intro name
  cases hf : H2.findIdx? (fun c => c == name) with
  | none => simp [hf]
  | some i =>
    have hi : i < H2.length := (List.findIdx?_eq_some_iff_findIdx_eq.mp hf).1
    have hilen : i < (parse_csv_row row sep).length := lt_of_lt_of_le hi harity
    simp [hf, List.getElem?_eq_getElem hilen]

theorem emit_rows_all_some (index : List (Option Nat)) (msep osep : Char)
    (emitF : String → List String) :
    ∀ rows : List String,
      (∀ row ∈ rows, sort_csv_row row index msep = some (emitF row)) →
      emit_rows index msep osep rows =
        ⟨rows.map (fun row => String.intercalate (String.mk [osep]) (emitF row)), none⟩ := by
  intro rows
  induction rows with
  | nil => intro _; rfl
  | cons r rest ih =>
    intro hall
    have hr := hall r (List.mem_cons_self _ _)
    simp only [emit_rows, hr, List.map_cons]
    rw [ih (fun row hrow => hall row (List.mem_cons_of_mem _ hrow))]

/-- C6: when the merged header is contained in the main header but differs
from it, `merge_files` succeeds and appends, for every data row of the merged
file, a row whose field at each position of the main header is the merged
row's field for that column (at its first position in the merged header) when
the column occurs there and the empty string otherwise, the fields being
joined with the main file's separator. -/
theorem merge_files_subset_realignment (mainLines mergedLines : List String)
    (main_sep merged_sep : Char)
    (hsub : ∀ c ∈ read_header mergedLines merged_sep, c ∈ read_header mainLines main_sep)
    (hne : read_header mainLines main_sep ≠ read_header mergedLines merged_sep)
    (harity : ∀ row ∈ mergedLines.tail,
      (read_header mergedLines merged_sep).length ≤
        (parse_csv_row row merged_sep).length) :
    merge_files mainLines mergedLines main_sep merged_sep =
      ⟨mergedLines.tail.map (fun row =>
        String.intercalate (String.mk [main_sep])
          ((read_header mainLines main_sep).map (fun name =>
            match (read_header mergedLines merged_sep).findIdx? (fun c => c == name) with
            | some i => (parse_csv_row row merged_sep).getD i ""
            | none => ""))), none⟩ := by
  have hmiss : (read_header mergedLines merged_sep).filter
      (fun c => !((read_header mainLines main_sep).contains c)) = [] := by
    rw [List.filter_eq_nil]
    intro c hc
    simp only [Bool.not_eq_true', Bool.not_eq_false]
    exact List.elem_eq_true_of_mem (hsub c hc)
  unfold merge_files
  rw [if_neg (not_not_intro hmiss), if_neg hne]
  exact emit_rows_all_some _ merged_sep main_sep _ mergedLines.tail
    (fun row hrow => sort_csv_row_realigned row _ _ merged_sep (harity row hrow))

/-- Witness for C6: realigning rows of a `b,a` file into an `a;b;c` file. -/
theorem merge_files_subset_realignment_witness :
    merge_files ["a;b;c", "1;2;3"] ["b,a", "x,y"] ';' ',' = ⟨["y;x;"], none⟩ := by
  have h := merge_files_subset_realignment ["a;b;c", "1;2;3"] ["b,a", "x,y"] ';' ','
    (by decide) (by decide) (by decide)
  exact h.trans (by decide)

/-! ## Claim C9 -/

/-- C9 as stated is false: an exception raised while merging one of the
staged files (here the `IndexError` of `_sort_csv_row` on a row shorter than
its header) escapes before `self.staged_files = []` runs, leaving the staged
list non-empty. -/
theorem merge_staged_files_counterexample :
    (merge_staged_files (fun p => if p = "f1" then ["c"] else ["a,b", "x"])
      [("f1", ',', "utf-8"), ("f2", ',', "utf-8")] ';' false).error =
        some MergeError.indexError ∧
    (merge_staged_files (fun p => if p = "f1" then ["c"] else ["a,b", "x"])
      [("f1", ',', "utf-8"), ("f2", ',', "utf-8")] ';' false).staged =
        [("f1", ',', "utf-8"), ("f2", ',', "utf-8")] ∧
    ([("f1", ',', "utf-8"), ("f2", ',', "utf-8")] : List StagedFile) ≠ [] := by
  decide

theorem merge_staged_result_spec (s1 : List StagedFile)
    (r : List String × Option MergeError) :
    ((merge_staged_result s1 r).error = none → (merge_staged_result s1 r).staged = []) ∧
    (∀ e, (merge_staged_result s1 r).error = some e →
      (merge_staged_result s1 r).staged = s1) := by
  obtain ⟨out, err⟩ := r
  cases err with
  | none => simp [merge_staged_result]
  | some e => simp [merge_staged_result]

/-- C9 amended: the staged list is emptied when `merge_staged_files` finishes
without an exception; when an exception is raised while merging one of the
staged files, the staged list keeps its prior value (the staged tuples,
sorted in place when `sort_files` was requested) — it is not cleared. -/
theorem merge_staged_files_amended (contents : String → List String)
    (staged : List StagedFile) (sep : Char) (sort_files : Bool) :
    ((merge_staged_files contents staged sep sort_files).error = none →
      (merge_staged_files contents staged sep sort_files).staged = []) ∧
    (∀ e, (merge_staged_files contents staged sep sort_files).error = some e →
      (merge_staged_files contents staged sep sort_files).staged =
        (if sort_files then sort_by (fun sf => alphanum_key sf.1) staged else staged)) :=
  merge_staged_result_spec
    (if sort_files then sort_by (fun sf => alphanum_key sf.1) staged else staged)
    (merge_loop contents sep
      [String.intercalate (String.mk [sep]) (staged_files_header contents staged)]
      (if sort_files then sort_by (fun sf => alphanum_key sf.1) staged else staged))

/-- Witness for the amended C9: a successful call leaves the staged list
empty, and the failing call of the counterexample leaves it unchanged. -/
theorem merge_staged_files_amended_witness :
    (merge_staged_files (fun _ => ["h", "1"]) [("a.csv", ',', "utf-8")] ';' false).staged
      = [] ∧
    (merge_staged_files (fun p => if p = "f1" then ["c"] else ["a,b", "x"])
      [("f1", ',', "utf-8"), ("f2", ',', "utf-8")] ';' false).staged =
        (if false then sort_by (fun sf => alphanum_key sf.1)
          [("f1", ',', "utf-8"), ("f2", ',', "utf-8")] else
          [("f1", ',', "utf-8"), ("f2", ',', "utf-8")]) :=
  ⟨(merge_staged_files_amended (fun _ => ["h", "1"]) [("a.csv", ',', "utf-8")] ';'
      false).1 (by decide),
   (merge_staged_files_amended (fun p => if p = "f1" then ["c"] else ["a,b", "x"])
      [("f1", ',', "utf-8"), ("f2", ',', "utf-8")] ';' false).2
      MergeError.indexError (by decide)⟩

/-! ## Claim C10 -/

/-- C10: `stage` given the path of an existing regular file whose name does
not end in `.csv` records nothing and raises no error: the non-csv file is
silently skipped even when its path is passed explicitly. -/
theorem stage_skips_non_csv (is_file is_dir : String → Bool)
    (list_dir : String → List String) (staged : List StagedFile)
    (path : String) (sep : Char) (encoding : String)
    (hfile : is_file path = true)
    (hnotcsv : ".csv".data.isSuffixOf path.data = false) :
    stage is_file is_dir list_dir staged [path] sep encoding = Except.ok staged := by
  simp [stage, hfile, stage_one, hnotcsv]

/-- Witness for C10: an existing `.txt` file is silently skipped. -/
theorem stage_skips_non_csv_witness :
    stage (fun _ => true) (fun _ => false) (fun _ => []) [] ["/data/notes.txt"] ','
      "utf-8" = Except.ok [] :=
  stage_skips_non_csv (fun _ => true) (fun _ => false) (fun _ => []) []
    "/data/notes.txt" ',' "utf-8" rfl (by decide)

end Csvtools
